import Mathlib

/-!
Verification of `scripts/github_stats_updater.py`

A shallow embedding of the GitHub stats updater script. Python dictionaries
(which preserve insertion order) are modelled as association lists, text as
`List Char`, Python integers as `ℤ`, and fallible operations (`max()` of an
empty sequence, list indexing) as `Option`. Python's true division followed
by `round` (banker's rounding) or `int` (truncation toward zero) is modelled
exactly over the integers: the script only ever divides small exact integer
quantities, so the exact rational value is the faithful reading of the
floating-point computation at every input considered here.

The file patcher `update_readme` performs
`re.sub('(START).*(END)', START + '\n' + block + '\n' + END, content, flags=DOTALL)`
after an `in`-test on the start marker.  With a greedy `.*` the unique match
(when one exists) runs from the first occurrence of the start marker to the
last occurrence of the end marker, and the replacement text is spliced in
between; the model below computes exactly that.  (The rendered block never
contains a backslash, so `re.sub`'s escape processing of the replacement
string is the identity and is elided.)
-/

namespace StatsUpdater

/-! ## Association lists: the model of Python `dict` -/

/-- Python `d.get(k, default)`-style lookup: first binding of `k`, if any. -/
def alLookup {α : Type} [DecidableEq α] {β : Type} : List (α × β) → α → Option β
  | [], _ => none
  | (k', v) :: rest, k => if k' = k then some v else alLookup rest k

/-- Python `d[k] = v`: overwrite the existing binding in place, else append
(Python dicts preserve insertion order). -/
def alSet {α : Type} [DecidableEq α] {β : Type} : List (α × β) → α → β → List (α × β)
  | [], k, v => [(k, v)]
  | (k', v') :: rest, k, v => if k' = k then (k, v) :: rest else (k', v') :: alSet rest k v

/-- The `day -> commit count` mapping: the `daily_commits` dictionary. -/
abbrev DailyMap := List (String × ℤ)

/-- The `day -> (hour -> commit count)` mapping: the `hourly_commits` dictionary. -/
abbrev HourlyMap := List (String × List (ℕ × ℤ))

/-- Python `daily_commits.get(day, 0)`. -/
def dGet (m : DailyMap) (day : String) : ℤ := (alLookup m day).getD 0

/-- Python `hourly_commits.get(day, {}).get(hour, 0)`. -/
def hGet (m : HourlyMap) (day : String) (hour : ℕ) : ℤ :=
  (alLookup ((alLookup m day).getD []) hour).getD 0

/-! ## Python arithmetic helpers -/

/-- Python's `round(a / b)` for integers `a`, `b` with `b > 0`: round the
exact rational `a / b` to the nearest integer, ties to even. -/
def roundHalfEven (a b : ℤ) : ℤ :=
  let d := Int.fdiv a b
  let r := a - d * b
  if 2 * r < b then d else if b < 2 * r then d + 1 else if d % 2 = 0 then d else d + 1

/-- Python's `int(a / b)` for integers `a`, `b` with `b ≠ 0`: truncate the
exact rational `a / b` toward zero. -/
def truncDiv (a b : ℤ) : ℤ := Int.tdiv a b

/-- Python list indexing `l[i]`, with negative indices counting from the end
and `none` for an `IndexError`. -/
def pyIndex {α : Type} (l : List α) (i : ℤ) : Option α :=
  if 0 ≤ i ∧ i < (l.length : ℤ) then l[i.toNat]?
  else if -(l.length : ℤ) ≤ i ∧ i < 0 then l[(i + (l.length : ℤ)).toNat]?
  else none

/-! ## `create_daily_commit_bars` -/

/-- The fixed weekday order of both renderers. -/
def days : List String := ["Mon", "Tue", "Wed", "Thu", "Fri", "Sat", "Sun"]

/-- Python `max(daily_commits.values()) if daily_commits else 1`. -/
def dailyMax (m : DailyMap) : ℤ :=
  match m.map Prod.snd with
  | [] => 1
  | v :: vs => vs.foldl max v

/-- Python `round(commits * 20 / max_commits) if max_commits > 0 else 0`. -/
def barLength (maxC commits : ℤ) : ℤ :=
  if 0 < maxC then roundHalfEven (commits * 20) maxC else 0

/-- Python `round(commits * 24 / max_commits) if max_commits > 0 else 0`. -/
def hoursLabel (maxC commits : ℤ) : ℤ :=
  if 0 < maxC then roundHalfEven (commits * 24) maxC else 0

/-- Python `f"{s:<n}"`: pad on the right with spaces to width `n`. -/
def padRight (s : List Char) (n : ℕ) : List Char :=
  s ++ List.replicate (n - s.length) ' '

/-- One line `f"{day:<8} ╠{bar}╣ {hours}hrs"` of the daily bar chart. -/
def barRow (maxC : ℤ) (m : DailyMap) (day : String) : List Char :=
  padRight day.data 8 ++ " ╠".data ++ List.replicate (barLength maxC (dGet m day)).toNat '═'
    ++ "╣ ".data ++ (toString (hoursLabel maxC (dGet m day))).data ++ "hrs".data

/-- The fixed axis legend appended below the seven bars. -/
def scaleRow : List Char := "         0   4   8   12   16   20   24".data

/-- The renderer `create_daily_commit_bars`: seven bar lines plus the legend. -/
def create_daily_commit_bars (m : DailyMap) : List Char :=
  List.intercalate "\n".data (days.map (barRow (dailyMax m) m) ++ [scaleRow])

/-! ## `create_heatmap` -/

/-- The 7-glyph intensity palette, from empty to full. -/
def intensity_chars : List (List Char) :=
  ["░░".data, "▒░".data, "▒▒".data, "█░".data, "█▒".data, "█▓".data, "██".data]

/-- All cell counts of the hourly histogram, in dictionary order: the
sequence the `max(...)` generator in `create_heatmap` ranges over. -/
def hourlyValues (m : HourlyMap) : List ℤ :=
  (m.map (fun p => p.2.map Prod.snd)).flatten

/-- The `max(...) if hourly_commits else 1` guard: `none` models the
`ValueError` raised by `max` on an empty sequence, which happens exactly
when the outer dict is nonempty but holds no cell at all. -/
def hourlyMax (m : HourlyMap) : Option ℤ :=
  if m = [] then some 1
  else
    match hourlyValues m with
    | [] => none
    | v :: vs => some (vs.foldl max v)

/-- Python `int((commits * (len(intensity_chars) - 1)) / max_commits) if max_commits > 0 else 0`. -/
def cellIntensity (maxC commits : ℤ) : ℤ :=
  if 0 < maxC then truncDiv (commits * ((intensity_chars.length : ℤ) - 1)) maxC else 0

/-- Python `f"{h:02d}"`: the two-digit hour header field. -/
def twoDigit (h : ℕ) : List Char :=
  List.replicate (2 - (toString h).data.length) '0' ++ (toString h).data

/-- The renderer `create_heatmap`: header plus one glyph row per weekday; `none` models
an uncaught exception (empty `max()` or palette `IndexError`). -/
def create_heatmap (m : HourlyMap) : Option (List Char) :=
  match hourlyMax m with
  | none => none
  | some maxC =>
    match days.mapM (fun day =>
        (((List.range 24).mapM
            (fun h => pyIndex intensity_chars (cellIntensity maxC (hGet m day h)))).map
          (fun cells => List.intercalate " ".data (padRight day.data 5 :: cells)))) with
    | none => none
    | some rows =>
      some (List.intercalate "\n".data
        (("     ".data ++ List.intercalate " ".data ((List.range 24).map twoDigit)) :: rows))

/-! ## The stats collector (`get_commit_time_data` and the yearly total)

A repository is modelled by the outcome of fetching its commits: an error,
or the list of commit timestamps already bucketed as (weekday name, hour).
-/

/-- Python `daily_commits[day] += 1` on a `defaultdict(int)`. -/
def dIncr (m : DailyMap) (day : String) : DailyMap :=
  alSet m day ((alLookup m day).getD 0 + 1)

/-- Python `hourly_commits[day][hour] += 1` on a `defaultdict(lambda: defaultdict(int))`. -/
def hIncr (m : HourlyMap) (day : String) (hour : ℕ) : HourlyMap :=
  alSet m day (alSet ((alLookup m day).getD []) hour
    ((alLookup ((alLookup m day).getD []) hour).getD 0 + 1))

/-- Record one commit in both histograms. -/
def applyCommit (acc : HourlyMap × DailyMap) (c : String × ℕ) : HourlyMap × DailyMap :=
  (hIncr acc.1 c.1 c.2, dIncr acc.2 c.1)

/-- One iteration of the repo loop: `try: ... except: continue`. -/
def processRepo (acc : HourlyMap × DailyMap) (r : Except Unit (List (String × ℕ))) :
    HourlyMap × DailyMap :=
  match r with
  | .error _ => acc
  | .ok commits => commits.foldl applyCommit acc

/-- The collector `get_commit_time_data`: fold every repository's fetch outcome into the
two histograms, skipping failures. -/
def get_commit_time_data (repos : List (Except Unit (List (String × ℕ)))) :
    HourlyMap × DailyMap :=
  repos.foldl processRepo ([], [])

/-- Whether a per-repository fetch succeeded. -/
def fetchOk {χ : Type} : Except Unit χ → Bool
  | .ok _ => true
  | .error _ => false

/-- The current-year commit loop of `get_github_stats`: sum `totalCount`
over repositories, skipping failures. -/
def yearlyCommitTotal (counts : List (Except Unit ℤ)) : ℤ :=
  counts.foldl (fun acc r => match r with | .ok n => acc + n | .error _ => acc) 0

/-! ## The file patcher `update_readme` -/

/-- The literal start marker. -/
def startMarker : List Char := "<!--START_SECTION:github_stats-->".data

/-- The literal end marker. -/
def endMarker : List Char := "<!--END_SECTION:github_stats-->".data

/-- The pattern `pat` occurs in `s` starting at position `i`. -/
def occursAt (pat s : List Char) (i : ℕ) : Prop := pat <+: s.drop i

instance (pat s : List Char) (i : ℕ) : Decidable (occursAt pat s i) :=
  inferInstanceAs (Decidable (pat <+: s.drop i))

/-- The pattern `pat` occurs somewhere in `s` (Python's `pat in s`). -/
def occursIn (pat s : List Char) : Prop := ∃ i, occursAt pat s i

instance (pat s : List Char) : Decidable (occursIn pat s) :=
  decidable_of_iff (∃ i < s.length + 1, occursAt pat s i) (by
    constructor
    · rintro ⟨i, _, h⟩; exact ⟨i, h⟩
    · rintro ⟨i, h⟩
      by_cases hi : i < s.length + 1
      · exact ⟨i, hi, h⟩
      · refine ⟨s.length, Nat.lt_succ_self _, ?_⟩
        have hdrop : s.drop i = [] := List.drop_eq_nil_of_le (by omega)
        have : pat = [] := List.prefix_nil.mp (hdrop ▸ h)
        simp [occursAt, this])

/-- Index of the first occurrence of `pat` in `s`, if any. -/
def firstOcc (pat : List Char) : List Char → Option ℕ
  | [] => if pat = [] then some 0 else none
  | c :: s => if pat.isPrefixOf (c :: s) then some 0 else (firstOcc pat s).map (· + 1)

/-- Index of the last occurrence of `pat` in `s`, if any. -/
def lastOcc (pat : List Char) : List Char → Option ℕ
  | [] => if pat = [] then some 0 else none
  | c :: s =>
    match lastOcc pat s with
    | some i => some (i + 1)
    | none => if pat.isPrefixOf (c :: s) then some 0 else none

/-- The replacement text `start_marker + '\n' + stats_section + '\n' + end_marker`. -/
def sectionText (block : List Char) : List Char :=
  startMarker ++ '\n' :: block ++ '\n' :: endMarker

/-- The content transformation of `update_readme`, with the rendered
`stats_section` passed as `block` (file I/O elided).  If the start marker is
absent the marker pair is appended; otherwise `re.sub` with the greedy
DOTALL pattern `(START).*(END)` replaces the span from the first start
marker to the last end marker beginning at or after it — and leaves the
content unchanged when no end marker begins there. -/
def update_readme (block content : List Char) : List Char :=
  match firstOcc startMarker content with
  | none => content ++ '\n' :: sectionText block ++ ['\n']
  | some i =>
    match lastOcc endMarker content with
    | some j =>
      if i + startMarker.length ≤ j then
        content.take i ++ sectionText block ++ content.drop (j + endMarker.length)
      else content
    | none => content

/-! ## Occurrence machinery for the patcher proofs -/

/-- A pattern with no nontrivial border: no proper nonempty suffix of `pat`
is also a prefix of `pat`.  Both markers satisfy this (their only `<` is the
first character), so occurrences of a marker cannot overlap each other. -/
def NoBorder (pat : List Char) : Prop :=
  ∀ k < pat.length, 0 < k → ¬ pat.drop k <+: pat

instance (pat : List Char) : Decidable (NoBorder pat) :=
  inferInstanceAs (Decidable (∀ k < pat.length, 0 < k → ¬ pat.drop k <+: pat))

theorem occursAt_zero {pat s : List Char} : occursAt pat s 0 ↔ pat <+: s := Iff.rfl

theorem occursAt_cons_succ {pat : List Char} {c : Char} {s : List Char} {j : ℕ} :
    occursAt pat (c :: s) (j + 1) ↔ occursAt pat s j := Iff.rfl

theorem occursAt_nil {pat : List Char} {i : ℕ} (hpat : pat ≠ []) : ¬ occursAt pat [] i := by
  intro h
  exact hpat (List.prefix_nil.mp (by simpa [occursAt] using h))

/-- An occurrence of a nonempty pattern fits inside the string. -/
theorem occursAt_length {pat s : List Char} {i : ℕ} (hpat : pat ≠ []) (h : occursAt pat s i) :
    i + pat.length ≤ s.length := by
  have h1 := h.length_le
  rw [List.length_drop] at h1
  have h2 : 0 < pat.length := List.length_pos.mpr hpat
  omega

/-- Drop the first `k` characters of the pattern: the tail still occurs. -/
theorem occursAt_drop_pat {pat s : List Char} {i : ℕ} (k : ℕ) (h : occursAt pat s i) :
    occursAt (pat.drop k) s (i + k) := by
  obtain ⟨t, ht⟩ := h
  unfold occursAt
  rw [← List.drop_drop, ← ht, List.drop_append_eq_append_drop]
  exact List.prefix_append _ _

/-- An occurrence past the left part of an append is an occurrence in the
right part. -/
theorem occursAt_append_right_of {pat a b : List Char} {i : ℕ}
    (h : occursAt pat (a ++ b) i) (hge : a.length ≤ i) : occursAt pat b (i - a.length) := by
  unfold occursAt at h ⊢
  rwa [List.drop_append_eq_append_drop, List.drop_eq_nil_of_le hge, List.nil_append] at h

/-- An occurrence that ends within the left part of an append is an
occurrence in the left part. -/
theorem occursAt_append_left_of {pat a b : List Char} {i : ℕ}
    (h : occursAt pat (a ++ b) i) (hle : i + pat.length ≤ a.length) : occursAt pat a i := by
  unfold occursAt at h ⊢
  rw [List.drop_append_eq_append_drop] at h
  refine List.prefix_of_prefix_length_le h (List.prefix_append _ _) ?_
  rw [List.length_drop]
  omega

/-- Occurrences in the left part survive an append on the right. -/
theorem occursAt_append_left {pat a : List Char} (b : List Char) {i : ℕ}
    (h : occursAt pat a i) : occursAt pat (a ++ b) i := by
  unfold occursAt at h ⊢
  rw [List.drop_append_eq_append_drop]
  exact h.trans (List.prefix_append _ _)

/-- The canonical occurrence at the seam of `a ++ rest`. -/
theorem occursAt_append_start {pat rest : List Char} (a : List Char) (h : pat <+: rest) :
    occursAt pat (a ++ rest) a.length := by
  unfold occursAt
  rwa [List.drop_left]

/-- Occurrences in a `take` are occurrences in the whole string. -/
theorem occursAt_take {pat s : List Char} {n k : ℕ} (h : occursAt pat (s.take n) k) :
    occursAt pat s k := by
  unfold occursAt at h ⊢
  rw [List.drop_take] at h
  exact h.trans (List.take_prefix _ _)

/-- Occurrences in a `drop` are occurrences in the whole string, shifted. -/
theorem occursAt_drop_out {pat s : List Char} {m k : ℕ} (h : occursAt pat (s.drop m) k) :
    occursAt pat s (m + k) := by
  unfold occursAt at h ⊢
  rwa [← List.drop_drop]

theorem not_occursIn_of_lt_length {pat s : List Char} (h : s.length < pat.length) :
    ¬ occursIn pat s := by
  rintro ⟨i, hi⟩
  have h1 := hi.length_le
  rw [List.length_drop] at h1
  omega

/-- Appending one character that is not in the pattern cannot create an
occurrence. -/
theorem not_occursIn_append_single {pat s : List Char} {c : Char} (hpat : pat ≠ [])
    (hs : ¬ occursIn pat s) (hc : c ∉ pat) : ¬ occursIn pat (s ++ [c]) := by
  rintro ⟨i, hi⟩
  have hb := occursAt_length hpat hi
  rw [List.length_append, List.length_singleton] at hb
  by_cases hle : i + pat.length ≤ s.length
  · exact hs ⟨i, occursAt_append_left_of hi hle⟩
  · have hp0 : 0 < pat.length := List.length_pos.mpr hpat
    have hi' : i ≤ s.length := by omega
    have hpre : pat <+: s.drop i ++ [c] := by
      have h2 := hi
      unfold occursAt at h2
      rwa [List.drop_append_eq_append_drop, Nat.sub_eq_zero_of_le hi', List.drop_zero] at h2
    have heq : pat = s.drop i ++ [c] := by
      refine hpre.eq_of_length ?_
      rw [List.length_append, List.length_singleton, List.length_drop]
      omega
    exact hc (heq ▸ List.mem_append_right _ (List.mem_singleton_self c))

/-- In `a ++ pat ++ b`, if `pat` has no border and does not occur inside
`a`, then every occurrence of `pat` starts at or after the seam. -/
theorem occursAt_first_le {pat a b s : List Char} {i : ℕ} (hnb : NoBorder pat)
    (ha : ¬ occursIn pat a) (hs : s = a ++ (pat ++ b))
    (h : occursAt pat s i) : a.length ≤ i := by
  by_contra hlt
  push_neg at hlt
  by_cases hle : i + pat.length ≤ a.length
  · exact ha ⟨i, occursAt_append_left_of (hs ▸ h) hle⟩
  · have hk1 : 0 < a.length - i := by omega
    have hk2 : a.length - i < pat.length := by omega
    have h2 : occursAt (pat.drop (a.length - i)) s a.length := by
      have h3 := occursAt_drop_pat (a.length - i) h
      rwa [show i + (a.length - i) = a.length by omega] at h3
    have h4 := occursAt_append_right_of (hs ▸ h2) (le_refl a.length)
    rw [Nat.sub_self] at h4
    have h5 : pat.drop (a.length - i) <+: pat ++ b := occursAt_zero.mp h4
    have h6 : pat.drop (a.length - i) <+: pat := by
      refine List.prefix_of_prefix_length_le h5 (List.prefix_append _ _) ?_
      rw [List.length_drop]
      omega
    exact hnb _ hk2 hk1 h6

/-- In `a ++ pat ++ b`, if `pat` has no border and does not occur inside
`b`, then every occurrence of `pat` starts at or before the seam. -/
theorem occursAt_last_le {pat a b s : List Char} {i : ℕ} (hnb : NoBorder pat)
    (hb : ¬ occursIn pat b) (hs : s = a ++ (pat ++ b))
    (h : occursAt pat s i) : i ≤ a.length := by
  by_contra hlt
  push_neg at hlt
  have h1 := occursAt_append_right_of (hs ▸ h) (by omega)
  by_cases hge : a.length + pat.length ≤ i
  · have h2 := occursAt_append_right_of h1 (by omega)
    exact hb ⟨_, h2⟩
  · have hk1 : 0 < i - a.length := by omega
    have hk2 : i - a.length < pat.length := by omega
    have h5 : pat <+: (pat ++ b).drop (i - a.length) := h1
    rw [List.drop_append_eq_append_drop,
    Nat.sub_eq_zero_of_le (show i - a.length ≤ pat.length by omega), List.drop_zero] at h5
    have h6 : pat.drop (i - a.length) <+: pat := by
      refine List.prefix_of_prefix_length_le (List.prefix_append _ _) h5 ?_
      rw [List.length_drop]
      omega
    exact hnb _ hk2 hk1 h6

/-- The search `firstOcc` finds an occurrence below which there is none. -/
theorem firstOcc_eq_some_iff {pat s : List Char} {i : ℕ} (hpat : pat ≠ []) :
    firstOcc pat s = some i ↔ occursAt pat s i ∧ ∀ j < i, ¬ occursAt pat s j := by
  induction s generalizing i with
  | nil =>
    rw [firstOcc, if_neg hpat]
    constructor
    · intro h
      simp at h
    · rintro ⟨h, -⟩
      exact absurd h (occursAt_nil hpat)
  | cons c s ih =>
    rw [firstOcc]
    by_cases hp : pat.isPrefixOf (c :: s)
    · rw [if_pos hp]
      have h0 : occursAt pat (c :: s) 0 := occursAt_zero.mpr (List.isPrefixOf_iff_prefix.mp hp)
      constructor
      · intro h
        have hi : i = 0 := by
          injection h with h
          omega
        subst hi
        exact ⟨h0, fun j hj => absurd hj (Nat.not_lt_zero j)⟩
      · rintro ⟨hocc, hmin⟩
        rcases i with _ | i'
        · rfl
        · exact absurd h0 (hmin 0 (Nat.succ_pos _))
    · rw [if_neg hp]
      have h0 : ¬ occursAt pat (c :: s) 0 :=
        fun hh => hp (List.isPrefixOf_iff_prefix.mpr (occursAt_zero.mp hh))
      rcases i with _ | i'
      · constructor
        · intro h
          obtain ⟨a, -, ha⟩ := Option.map_eq_some'.mp h
          omega
        · rintro ⟨hocc, -⟩
          exact absurd hocc h0
      · constructor
        · intro h
          obtain ⟨a, ha, ha2⟩ := Option.map_eq_some'.mp h
          have haa : a = i' := by omega
          subst haa
          obtain ⟨hocc, hmin⟩ := ih.mp ha
          refine ⟨occursAt_cons_succ.mpr hocc, ?_⟩
          rintro (_ | j) hj
          · exact h0
          · exact fun hcj => hmin j (by omega) (occursAt_cons_succ.mp hcj)
        · rintro ⟨hocc, hmin⟩
          have h1 : firstOcc pat s = some i' := ih.mpr
            ⟨occursAt_cons_succ.mp hocc,
             fun j hj hcj => hmin (j + 1) (by omega) (occursAt_cons_succ.mpr hcj)⟩
          rw [h1]
          rfl

/-- The search `firstOcc` is `none` exactly when the pattern does not occur. -/
theorem firstOcc_eq_none_iff {pat s : List Char} (hpat : pat ≠ []) :
    firstOcc pat s = none ↔ ¬ occursIn pat s := by
  induction s with
  | nil =>
    rw [firstOcc, if_neg hpat]
    constructor
    · rintro - ⟨i, hi⟩
      exact occursAt_nil hpat hi
    · intro h
      rfl
  | cons c s ih =>
    rw [firstOcc]
    by_cases hp : pat.isPrefixOf (c :: s)
    · rw [if_pos hp]
      constructor
      · intro h
        simp at h
      · intro h
        exact absurd ⟨0, occursAt_zero.mpr (List.isPrefixOf_iff_prefix.mp hp)⟩ h
    · rw [if_neg hp]
      have h0 : ¬ occursAt pat (c :: s) 0 :=
        fun hh => hp (List.isPrefixOf_iff_prefix.mpr (occursAt_zero.mp hh))
      rw [Option.map_eq_none', ih]
      constructor
      · rintro hn ⟨j, hj⟩
        rcases j with _ | j'
        · exact h0 hj
        · exact hn ⟨j', occursAt_cons_succ.mp hj⟩
      · rintro hn ⟨j, hj⟩
        exact hn ⟨j + 1, occursAt_cons_succ.mpr hj⟩

/-- The search `lastOcc` succeeds exactly when the pattern occurs. -/
theorem lastOcc_isSome_iff {pat s : List Char} (hpat : pat ≠ []) :
    (lastOcc pat s).isSome = true ↔ occursIn pat s := by
  induction s with
  | nil =>
    rw [lastOcc, if_neg hpat]
    simp only [Option.isSome_none, Bool.false_eq_true, false_iff]
    rintro ⟨i, hi⟩
    exact occursAt_nil hpat hi
  | cons c s ih =>
    rw [lastOcc]
    cases h : lastOcc pat s with
    | some i =>
      simp only [Option.isSome_some, true_iff]
      have hocc : occursIn pat s := ih.mp (by rw [h]; rfl)
      obtain ⟨j, hj⟩ := hocc
      exact ⟨j + 1, occursAt_cons_succ.mpr hj⟩
    | none =>
      by_cases hp : pat.isPrefixOf (c :: s)
      · rw [if_pos hp]
        simp only [Option.isSome_some, true_iff]
        exact ⟨0, occursAt_zero.mpr (List.isPrefixOf_iff_prefix.mp hp)⟩
      · rw [if_neg hp]
        simp only [Option.isSome_none, Bool.false_eq_true, false_iff]
        rintro ⟨j, hj⟩
        rcases j with _ | j'
        · exact hp (List.isPrefixOf_iff_prefix.mpr (occursAt_zero.mp hj))
        · have h2 : occursIn pat s := ⟨j', occursAt_cons_succ.mp hj⟩
          rw [← ih, h] at h2
          simp at h2

/-- The search `lastOcc` finds an occurrence above which there is none. -/
theorem lastOcc_eq_some_iff {pat s : List Char} {i : ℕ} (hpat : pat ≠ []) :
    lastOcc pat s = some i ↔ occursAt pat s i ∧ ∀ j, occursAt pat s j → j ≤ i := by
  induction s generalizing i with
  | nil =>
    rw [lastOcc, if_neg hpat]
    constructor
    · intro h
      simp at h
    · rintro ⟨h, -⟩
      exact absurd h (occursAt_nil hpat)
  | cons c s ih =>
    rw [lastOcc]
    cases htail : lastOcc pat s with
    | some i' =>
      obtain ⟨hocc', hmax'⟩ := ih.mp htail
      constructor
      · intro h
        have hi : i = i' + 1 := by
          injection h with h
          omega
        subst hi
        refine ⟨occursAt_cons_succ.mpr hocc', ?_⟩
        rintro (_ | j) hj
        · omega
        · have := hmax' j (occursAt_cons_succ.mp hj)
          omega
      · rintro ⟨hocc, hmax⟩
        have h1 : i' + 1 ≤ i := hmax (i' + 1) (occursAt_cons_succ.mpr hocc')
        rcases i with _ | j
        · omega
        · have h2 : j ≤ i' := hmax' j (occursAt_cons_succ.mp hocc)
          have h3 : j = i' := by omega
          subst h3
          rfl
    | none =>
      have hno : ¬ occursIn pat s := by
        intro hocc
        have h2 := (lastOcc_isSome_iff hpat).mpr hocc
        rw [htail] at h2
        simp at h2
      by_cases hp : pat.isPrefixOf (c :: s)
      · rw [if_pos hp]
        have h0 : occursAt pat (c :: s) 0 := occursAt_zero.mpr (List.isPrefixOf_iff_prefix.mp hp)
        constructor
        · intro h
          have hi : i = 0 := by
            injection h with h
            omega
          subst hi
          refine ⟨h0, ?_⟩
          rintro (_ | j) hj
          · omega
          · exact absurd ⟨j, occursAt_cons_succ.mp hj⟩ hno
        · rintro ⟨hocc, hmax⟩
          rcases i with _ | j
          · rfl
          · exact absurd ⟨j, occursAt_cons_succ.mp hocc⟩ hno
      · rw [if_neg hp]
        have h0 : ¬ occursAt pat (c :: s) 0 :=
          fun hh => hp (List.isPrefixOf_iff_prefix.mpr (occursAt_zero.mp hh))
        constructor
        · intro h
          simp at h
        · rintro ⟨hocc, -⟩
          rcases i with _ | j
          · exact absurd hocc h0
          · exact absurd ⟨j, occursAt_cons_succ.mp hocc⟩ hno

/-- Before the first occurrence the pattern does not occur. -/
theorem not_occursIn_take_firstOcc {pat s : List Char} {i : ℕ} (hpat : pat ≠ [])
    (h : firstOcc pat s = some i) : ¬ occursIn pat (s.take i) := by
  obtain ⟨hocc, hmin⟩ := (firstOcc_eq_some_iff hpat).mp h
  rintro ⟨k, hk⟩
  have hkb := occursAt_length hpat hk
  rw [List.length_take] at hkb
  have h3 : 0 < pat.length := List.length_pos.mpr hpat
  exact hmin k (by omega) (occursAt_take hk)

/-- After the last occurrence the pattern does not occur. -/
theorem not_occursIn_drop_lastOcc {pat s : List Char} {j : ℕ} (hpat : pat ≠ [])
    (h : lastOcc pat s = some j) : ¬ occursIn pat (s.drop (j + pat.length)) := by
  obtain ⟨-, hmax⟩ := (lastOcc_eq_some_iff hpat).mp h
  rintro ⟨k, hk⟩
  have h2 := hmax _ (occursAt_drop_out hk)
  have h3 : 0 < pat.length := List.length_pos.mpr hpat
  omega

/-- The first occurrence in `a ++ pat ++ b` is at the seam when `pat` is
border-free and absent from `a`. -/
theorem firstOcc_seam {pat a b : List Char} (hpat : pat ≠ []) (hnb : NoBorder pat)
    (ha : ¬ occursIn pat a) : firstOcc pat (a ++ (pat ++ b)) = some a.length := by
  rw [firstOcc_eq_some_iff hpat]
  refine ⟨occursAt_append_start a (List.prefix_append _ _), ?_⟩
  intro j hj hocc
  have := occursAt_first_le hnb ha rfl hocc
  omega

/-- The last occurrence in `a ++ pat ++ b` is at the seam when `pat` is
border-free and absent from `b`. -/
theorem lastOcc_seam {pat a b : List Char} (hpat : pat ≠ []) (hnb : NoBorder pat)
    (hb : ¬ occursIn pat b) : lastOcc pat (a ++ (pat ++ b)) = some a.length := by
  rw [lastOcc_eq_some_iff hpat]
  exact ⟨occursAt_append_start a (List.prefix_append _ _),
    fun j hj => occursAt_last_le hnb hb rfl hj⟩

theorem startMarker_ne_nil : startMarker ≠ [] := by decide

theorem endMarker_ne_nil : endMarker ≠ [] := by decide

theorem noBorder_startMarker : NoBorder startMarker := by decide

theorem noBorder_endMarker : NoBorder endMarker := by decide

theorem newline_notin_startMarker : ('\n' : Char) ∉ startMarker := by decide

theorem newline_notin_endMarker : ('\n' : Char) ∉ endMarker := by decide

/-! ## Behaviour of `update_readme` -/

theorem update_readme_of_absent {block content : List Char}
    (h : firstOcc startMarker content = none) :
    update_readme block content = content ++ '\n' :: sectionText block ++ ['\n'] := by
  unfold update_readme
  rw [h]

theorem update_readme_of_match (block : List Char) {content : List Char} {i j : ℕ}
    (h1 : firstOcc startMarker content = some i)
    (h2 : lastOcc endMarker content = some j)
    (h3 : i + startMarker.length ≤ j) :
    update_readme block content =
      content.take i ++ sectionText block ++ content.drop (j + endMarker.length) := by
  unfold update_readme
  rw [h1, h2]
  dsimp only
  rw [if_pos h3]

theorem update_readme_of_noend {block content : List Char} {i : ℕ}
    (h1 : firstOcc startMarker content = some i)
    (h2 : lastOcc endMarker content = none) :
    update_readme block content = content := by
  unfold update_readme
  rw [h1, h2]

theorem update_readme_of_nomatch (block : List Char) {content : List Char} {i j : ℕ}
    (h1 : firstOcc startMarker content = some i)
    (h2 : lastOcc endMarker content = some j)
    (h3 : ¬ i + startMarker.length ≤ j) :
    update_readme block content = content := by
  unfold update_readme
  rw [h1, h2]
  dsimp only
  rw [if_neg h3]

theorem sectionText_decomp (block : List Char) :
    sectionText block = startMarker ++ ('\n' :: block ++ '\n' :: endMarker) := by
  simp [sectionText, List.append_assoc]

theorem sectionText_decomp2 (block : List Char) :
    sectionText block = (startMarker ++ ('\n' :: block ++ ['\n'])) ++ endMarker := by
  simp [sectionText, List.append_assoc]

/-- Push an occurrence of `u ++ pat` forward to an occurrence of `pat`. -/
theorem occursAt_after_front {u pat s : List Char} {k : ℕ}
    (h : occursAt (u ++ pat) s k) : occursAt pat s (k + u.length) := by
  have h2 := occursAt_drop_pat u.length h
  rwa [List.drop_left] at h2

/-- When the start marker is absent, `update_readme` appends the marker
pair around the block, keeping the old content as an unchanged prefix. -/
theorem update_readme_append {block content : List Char}
    (h : ¬ occursIn startMarker content) :
    update_readme block content = content ++ '\n' :: sectionText block ++ ['\n'] :=
  update_readme_of_absent ((firstOcc_eq_none_iff startMarker_ne_nil).mpr h)

/-- The core replacement behaviour: in `A ++ START ++ mid ++ END ++ B` with
no start marker inside `A` and no end marker inside `B` — so the marked
occurrences are the first start marker and the last end marker — the whole
span between the markers is replaced and `A`, `B` are untouched. -/
theorem update_readme_replace (block A mid B : List Char)
    (hA : ¬ occursIn startMarker A) (hB : ¬ occursIn endMarker B) :
    update_readme block (A ++ (startMarker ++ (mid ++ (endMarker ++ B))))
      = A ++ (sectionText block ++ B) := by
  have h1 : firstOcc startMarker (A ++ (startMarker ++ (mid ++ (endMarker ++ B))))
      = some A.length :=
    firstOcc_seam startMarker_ne_nil noBorder_startMarker hA
  have hxy : A ++ (startMarker ++ (mid ++ (endMarker ++ B)))
      = (A ++ (startMarker ++ mid)) ++ (endMarker ++ B) := by
    simp [List.append_assoc]
  have h2 : lastOcc endMarker (A ++ (startMarker ++ (mid ++ (endMarker ++ B))))
      = some (A ++ (startMarker ++ mid)).length := by
    rw [hxy]
    exact lastOcc_seam endMarker_ne_nil noBorder_endMarker hB
  have h3 : A.length + startMarker.length ≤ (A ++ (startMarker ++ mid)).length := by
    simp only [List.length_append]
    omega
  rw [update_readme_of_match block h1 h2 h3]
  have ht : (A ++ (startMarker ++ (mid ++ (endMarker ++ B)))).take A.length = A :=
    List.take_left A _
  have hs2 : A ++ (startMarker ++ (mid ++ (endMarker ++ B)))
      = ((A ++ (startMarker ++ mid)) ++ endMarker) ++ B := by
    simp [List.append_assoc]
  have hd : (A ++ (startMarker ++ (mid ++ (endMarker ++ B)))).drop
      ((A ++ (startMarker ++ mid)).length + endMarker.length) = B := by
    rw [hs2, show (A ++ (startMarker ++ mid)).length + endMarker.length
        = ((A ++ (startMarker ++ mid)) ++ endMarker).length by simp only [List.length_append]]
    exact List.drop_left _ _
  rw [ht, hd]
  simp [List.append_assoc]

/-- The result of a successful replacement (or append) contains the
replacement section exactly once. -/
theorem sectionText_unique (block A B : List Char)
    (hA : ¬ occursIn startMarker A) (hB : ¬ occursIn endMarker B) :
    ∃! k, occursAt (sectionText block) (A ++ (sectionText block ++ B)) k := by
  refine ⟨A.length, occursAt_append_start A (List.prefix_append _ _), ?_⟩
  intro k hk
  have hS : occursAt startMarker (A ++ (sectionText block ++ B)) k := by
    have hpre : startMarker <+: sectionText block := by
      rw [sectionText_decomp]
      exact List.prefix_append _ _
    exact hpre.trans hk
  have hshape1 : A ++ (sectionText block ++ B)
      = A ++ (startMarker ++ (('\n' :: block ++ '\n' :: endMarker) ++ B)) := by
    simp [sectionText, List.append_assoc]
  have hkS : A.length ≤ k := occursAt_first_le noBorder_startMarker hA hshape1 hS
  have hE : occursAt endMarker (A ++ (sectionText block ++ B))
      (k + (startMarker ++ ('\n' :: block ++ ['\n'])).length) := by
    have h2 : occursAt ((startMarker ++ ('\n' :: block ++ ['\n'])) ++ endMarker)
        (A ++ (sectionText block ++ B)) k := by
      rwa [← sectionText_decomp2]
    exact occursAt_after_front h2
  have hshape2 : A ++ (sectionText block ++ B)
      = (A ++ (startMarker ++ ('\n' :: block ++ ['\n']))) ++ (endMarker ++ B) := by
    simp [sectionText, List.append_assoc]
  have hkE : k + (startMarker ++ ('\n' :: block ++ ['\n'])).length
      ≤ (A ++ (startMarker ++ ('\n' :: block ++ ['\n']))).length :=
    occursAt_last_le noBorder_endMarker hB hshape2 hE
  simp only [List.length_append] at hkE
  omega

/-! ## Arithmetic bounds for the renderers -/

theorem roundHalfEven_eq (a b : ℤ) :
    roundHalfEven a b =
      if 2 * (a - Int.fdiv a b * b) < b then Int.fdiv a b
      else if b < 2 * (a - Int.fdiv a b * b) then Int.fdiv a b + 1
      else if Int.fdiv a b % 2 = 0 then Int.fdiv a b else Int.fdiv a b + 1 := rfl

theorem roundHalfEven_zero {b : ℤ} (hb : 0 < b) : roundHalfEven 0 b = 0 := by
  rw [roundHalfEven_eq, Int.zero_fdiv]
  simp [hb]

/-- Rounding `a / b` stays within `[0, N]` when `0 ≤ a ≤ N * b`. -/
theorem roundHalfEven_bounds {a b N : ℤ} (ha : 0 ≤ a) (hab : a ≤ N * b) (hb : 0 < b) :
    0 ≤ roundHalfEven a b ∧ roundHalfEven a b ≤ N := by
  have hfe : Int.fdiv a b = a / b := Int.fdiv_eq_ediv a (le_of_lt hb)
  have hd0 : 0 ≤ Int.fdiv a b := by
    rw [hfe]
    exact Int.ediv_nonneg ha (le_of_lt hb)
  have hdN : Int.fdiv a b ≤ N := by
    rw [hfe]
    calc a / b ≤ N * b / b := Int.ediv_le_ediv hb hab
    _ = N := Int.mul_ediv_cancel N (ne_of_gt hb)
  have hr0 : 0 ≤ a - Int.fdiv a b * b := by
    rw [hfe, mul_comm]
    have h2 := Int.emod_nonneg a (ne_of_gt hb)
    rwa [Int.emod_def] at h2
  have hrb : a - Int.fdiv a b * b < b := by
    rw [hfe, mul_comm]
    have h2 := Int.emod_lt_of_pos a hb
    rwa [Int.emod_def] at h2
  rw [roundHalfEven_eq]
  split_ifs with h1 h2 h3
  · exact ⟨hd0, hdN⟩
  · rcases lt_or_eq_of_le hdN with h | h
    · exact ⟨by linarith, by linarith⟩
    · exfalso
      have hr2 : a - Int.fdiv a b * b ≤ 0 := by
        rw [h]
        linarith
      linarith
  · exact ⟨hd0, hdN⟩
  · have h4 : 2 * (a - Int.fdiv a b * b) = b := le_antisymm (not_lt.mp h2) (not_lt.mp h1)
    rcases lt_or_eq_of_le hdN with h | h
    · exact ⟨by linarith, by linarith⟩
    · exfalso
      have hr2 : a - Int.fdiv a b * b ≤ 0 := by
        rw [h]
        linarith
      linarith

theorem barLength_zero (maxC : ℤ) : barLength maxC 0 = 0 := by
  unfold barLength
  split_ifs with h
  · rw [show ((0 : ℤ) * 20) = 0 by ring]
    exact roundHalfEven_zero h
  · rfl

theorem hoursLabel_zero (maxC : ℤ) : hoursLabel maxC 0 = 0 := by
  unfold hoursLabel
  split_ifs with h
  · rw [show ((0 : ℤ) * 24) = 0 by ring]
    exact roundHalfEven_zero h
  · rfl

/-- Bar lengths are within the 20-character budget for any count between
`0` and the scaling maximum. -/
theorem barLength_bounds {maxC c : ℤ} (hc : 0 ≤ c) (hcM : c ≤ maxC) :
    0 ≤ barLength maxC c ∧ barLength maxC c ≤ 20 := by
  unfold barLength
  split_ifs with h
  · exact roundHalfEven_bounds (by linarith) (by linarith) h
  · exact ⟨le_refl 0, by norm_num⟩

theorem truncDiv_coe (m n : ℕ) : truncDiv (m : ℤ) (n : ℤ) = ((m / n : ℕ) : ℤ) := rfl

/-- Palette indices are within `[0, 6]` for any count between `0` and the
scaling maximum. -/
theorem cellIntensity_bounds {maxC c : ℤ} (hc : 0 ≤ c) (hcM : c ≤ maxC) (hM : 0 < maxC) :
    0 ≤ cellIntensity maxC c ∧ cellIntensity maxC c ≤ 6 := by
  unfold cellIntensity
  rw [if_pos hM, show ((intensity_chars.length : ℤ) - 1) = 6 by decide]
  obtain ⟨cn, rfl⟩ := Int.eq_ofNat_of_zero_le hc
  obtain ⟨mn, rfl⟩ := Int.eq_ofNat_of_zero_le (le_of_lt hM)
  have hmn : 0 < mn := by exact_mod_cast hM
  have hcm : cn ≤ mn := by exact_mod_cast hcM
  rw [show ((cn : ℤ) * 6) = ((cn * 6 : ℕ) : ℤ) by push_cast; ring, truncDiv_coe]
  constructor
  · exact Int.natCast_nonneg _
  · have hle : cn * 6 / mn ≤ 6 := by
      calc cn * 6 / mn ≤ 6 * mn / mn := Nat.div_le_div_right (by omega)
      _ = 6 := Nat.mul_div_cancel 6 hmn
    exact_mod_cast hle

/-- A cell scales to the empty glyph exactly when its count is below one
seventh — strictly, `6 * c < maxC` — of the maximum. -/
theorem cellIntensity_eq_zero_iff {maxC c : ℤ} (hc : 0 ≤ c) (hM : 0 < maxC) :
    cellIntensity maxC c = 0 ↔ 6 * c < maxC := by
  unfold cellIntensity
  rw [if_pos hM, show ((intensity_chars.length : ℤ) - 1) = 6 by decide]
  obtain ⟨cn, rfl⟩ := Int.eq_ofNat_of_zero_le hc
  obtain ⟨mn, rfl⟩ := Int.eq_ofNat_of_zero_le (le_of_lt hM)
  have hmn : 0 < mn := by exact_mod_cast hM
  rw [show ((cn : ℤ) * 6) = ((cn * 6 : ℕ) : ℤ) by push_cast; ring, truncDiv_coe]
  have hnat : cn * 6 / mn = 0 ↔ cn * 6 < mn := Nat.div_eq_zero_iff hmn
  constructor
  · intro h
    have h2 : cn * 6 < mn := hnat.mp (by exact_mod_cast h)
    omega
  · intro h
    have h2 : cn * 6 < mn := by omega
    have h3 := hnat.mpr h2
    exact_mod_cast congrArg (Nat.cast : ℕ → ℤ) h3

/-! ## Dictionary and maximum lemmas -/

theorem le_foldl_max_init (xs : List ℤ) (v : ℤ) : v ≤ xs.foldl max v := by
  induction xs generalizing v with
  | nil => exact le_refl v
  | cons x xs ih => exact le_trans (le_max_left v x) (ih (max v x))

theorem mem_le_foldl_max {xs : List ℤ} {x v : ℤ} (h : v ∈ x :: xs) : v ≤ xs.foldl max x := by
  induction xs generalizing x with
  | nil =>
    rcases List.mem_singleton.mp h with rfl
    exact le_refl _
  | cons y ys ih =>
    rw [List.foldl_cons]
    rcases List.mem_cons.mp h with rfl | h2
    · exact le_trans (le_max_left v y) (le_foldl_max_init ys (max v y))
    · rcases List.mem_cons.mp h2 with rfl | h3
      · exact le_trans (le_max_right x v) (le_foldl_max_init ys (max x v))
      · exact ih (List.mem_cons_of_mem _ h3)

theorem foldl_max_mem (xs : List ℤ) (x : ℤ) : xs.foldl max x ∈ x :: xs := by
  induction xs generalizing x with
  | nil => exact List.mem_singleton_self x
  | cons y ys ih =>
    rw [List.foldl_cons]
    rcases List.mem_cons.mp (ih (max x y)) with h2 | h2
    · rw [h2]
      rcases max_choice x y with h3 | h3 <;> rw [h3]
      · exact List.mem_cons_self _ _
      · exact List.mem_cons_of_mem _ (List.mem_cons_self _ _)
    · exact List.mem_cons_of_mem _ (List.mem_cons_of_mem _ h2)

theorem alLookup_mem {α : Type} [DecidableEq α] {β : Type} {m : List (α × β)} {k : α} {v : β}
    (h : alLookup m k = some v) : (k, v) ∈ m := by
  induction m with
  | nil => simp [alLookup] at h
  | cons p rest ih =>
    obtain ⟨k', v'⟩ := p
    rw [alLookup] at h
    split_ifs at h with hk
    · injection h with h
      subst hk h
      exact List.mem_cons_self _ _
    · exact List.mem_cons_of_mem _ (ih h)

theorem dGet_zero {m : DailyMap} (h : ∀ p ∈ m, p.2 = 0) (d : String) : dGet m d = 0 := by
  unfold dGet
  cases hl : alLookup m d with
  | none => rfl
  | some v =>
    have h2 := h _ (alLookup_mem hl)
    simpa using h2

theorem dGet_zero_or_mem (m : DailyMap) (d : String) :
    dGet m d = 0 ∨ dGet m d ∈ m.map Prod.snd := by
  unfold dGet
  cases hl : alLookup m d with
  | none => exact Or.inl rfl
  | some v =>
    right
    simpa using List.mem_map_of_mem Prod.snd (alLookup_mem hl)

theorem le_dailyMax_of_mem {m : DailyMap} {v : ℤ} (h : v ∈ m.map Prod.snd) :
    v ≤ dailyMax m := by
  unfold dailyMax
  cases hv : m.map Prod.snd with
  | nil =>
    rw [hv] at h
    simp at h
  | cons x xs =>
    rw [hv] at h
    exact mem_le_foldl_max h

theorem hGet_zero_or_mem (m : HourlyMap) (d : String) (h : ℕ) :
    hGet m d h = 0 ∨ hGet m d h ∈ hourlyValues m := by
  unfold hGet
  cases ho : alLookup m d with
  | none => exact Or.inl rfl
  | some inner =>
    simp only [Option.getD_some]
    cases hi : alLookup inner h with
    | none => exact Or.inl rfl
    | some v =>
      right
      simp only [Option.getD_some]
      unfold hourlyValues
      rw [List.mem_flatten]
      exact ⟨inner.map Prod.snd, List.mem_map_of_mem _ (alLookup_mem ho),
        List.mem_map_of_mem Prod.snd (alLookup_mem hi)⟩

theorem le_hourlyMax_of_mem {m : HourlyMap} {M v : ℤ} (hM : hourlyMax m = some M)
    (h : v ∈ hourlyValues m) : v ≤ M := by
  unfold hourlyMax at hM
  by_cases hm : m = []
  · subst hm
    simp [hourlyValues] at h
  · rw [if_neg hm] at hM
    cases hv : hourlyValues m with
    | nil =>
      rw [hv] at h
      simp at h
    | cons x xs =>
      rw [hv] at hM h
      have hM2 : xs.foldl max x = M := by
        simpa using hM
      rw [← hM2]
      exact mem_le_foldl_max h

theorem hourlyMax_pos {m : HourlyMap} {M : ℤ} (hpos : ∀ v ∈ hourlyValues m, 0 ≤ v)
    (hnz : ∃ v ∈ hourlyValues m, v ≠ 0) (hM : hourlyMax m = some M) : 0 < M := by
  obtain ⟨v, hv, hvnz⟩ := hnz
  have h1 : v ≤ M := le_hourlyMax_of_mem hM hv
  have h2 : 0 ≤ v := hpos v hv
  omega

theorem hGet_nonneg {m : HourlyMap} (hpos : ∀ v ∈ hourlyValues m, 0 ≤ v) (d : String)
    (h : ℕ) : 0 ≤ hGet m d h := by
  rcases hGet_zero_or_mem m d h with h2 | h2
  · omega
  · exact hpos _ h2

/-! ## Error handling in the collector -/

theorem foldl_processRepo_filter (repos : List (Except Unit (List (String × ℕ))))
    (acc : HourlyMap × DailyMap) :
    (repos.filter fetchOk).foldl processRepo acc = repos.foldl processRepo acc := by
  induction repos generalizing acc with
  | nil => rfl
  | cons r rs ih =>
    cases r with
    | error e =>
      rw [List.filter_cons]
      simp only [fetchOk, Bool.false_eq_true, if_false]
      exact ih acc
    | ok commits =>
      rw [List.filter_cons]
      simp only [fetchOk, if_true]
      rw [List.foldl_cons, List.foldl_cons]
      exact ih _

/-- The successful fetches, in order. -/
def okValues (counts : List (Except Unit ℤ)) : List ℤ :=
  counts.filterMap (fun r => match r with | .ok n => some n | .error _ => none)

theorem yearly_foldl_eq (counts : List (Except Unit ℤ)) (acc : ℤ) :
    counts.foldl (fun a r => match r with | .ok n => a + n | .error _ => a) acc
      = acc + (okValues counts).sum := by
  induction counts generalizing acc with
  | nil => simp [okValues]
  | cons r rs ih =>
    cases r with
    | error e =>
      rw [List.foldl_cons]
      simp only [okValues, List.filterMap_cons] at ih ⊢
      exact ih acc
    | ok n =>
      rw [List.foldl_cons]
      simp only [okValues, List.filterMap_cons] at ih ⊢
      rw [ih (acc + n), List.sum_cons]
      ring

theorem okValues_filter (counts : List (Except Unit ℤ)) :
    okValues (counts.filter fetchOk) = okValues counts := by
  induction counts with
  | nil => rfl
  | cons r rs ih =>
    cases r with
    | error e =>
      rw [List.filter_cons]
      simp only [fetchOk, Bool.false_eq_true, if_false, okValues, List.filterMap_cons]
      exact ih
    | ok n =>
      rw [List.filter_cons]
      simp only [fetchOk, if_true, okValues, List.filterMap_cons]
      simp only [okValues] at ih
      rw [ih]

theorem dailyMax_nonneg {m : DailyMap} (h : ∀ p ∈ m, 0 ≤ p.2) : 0 ≤ dailyMax m := by
  unfold dailyMax
  cases hv : m.map Prod.snd with
  | nil => norm_num
  | cons x xs =>
    have h2 : xs.foldl max x ∈ m.map Prod.snd := by
      rw [hv]
      exact foldl_max_mem xs x
    obtain ⟨p, hp, hpe⟩ := List.mem_map.mp h2
    show 0 ≤ xs.foldl max x
    rw [← hpe]
    exact h p hp

/-! ## The claims -/

/-- C3: with nonnegative counts and at least one nonzero hourly cell, every
palette index computed by `create_heatmap` (via `cellIntensity` at the
histogram's maximum `M`) lies in `[0, 6]` — a valid index into the 7-glyph
palette — and every bar length computed by `create_daily_commit_bars` lies
in `[0, 20]`. -/
theorem C3_palette_and_bar_bounds (dm : DailyMap) (hm : HourlyMap) (M : ℤ)
    (hd : ∀ p ∈ dm, 0 ≤ p.2)
    (hh : ∀ v ∈ hourlyValues hm, 0 ≤ v)
    (hnz : ∃ v ∈ hourlyValues hm, v ≠ 0)
    (hM : hourlyMax hm = some M) :
    (∀ d hr, 0 ≤ cellIntensity M (hGet hm d hr) ∧ cellIntensity M (hGet hm d hr) ≤ 6) ∧
    (∀ d, 0 ≤ barLength (dailyMax dm) (dGet dm d) ∧
      barLength (dailyMax dm) (dGet dm d) ≤ 20) := by
  have hMpos : 0 < M := hourlyMax_pos hh hnz hM
  constructor
  · intro d hr
    have hc0 : 0 ≤ hGet hm d hr := hGet_nonneg hh d hr
    have hcM : hGet hm d hr ≤ M := by
      rcases hGet_zero_or_mem hm d hr with h2 | h2
      · omega
      · exact le_hourlyMax_of_mem hM h2
    exact cellIntensity_bounds hc0 hcM hMpos
  · intro d
    have hc0 : 0 ≤ dGet dm d := by
      rcases dGet_zero_or_mem dm d with h2 | h2
      · omega
      · obtain ⟨p, hp, hpe⟩ := List.mem_map.mp h2
        rw [← hpe]
        exact hd p hp
    have hcM : dGet dm d ≤ dailyMax dm := by
      rcases dGet_zero_or_mem dm d with h2 | h2
      · rw [h2]
        exact dailyMax_nonneg hd
      · exact le_dailyMax_of_mem h2
    exact barLength_bounds hc0 hcM

theorem C3_witness :
    (∀ p ∈ ([("Mon", 10), ("Tue", 5)] : DailyMap), 0 ≤ p.2) ∧
    (∀ v ∈ hourlyValues [("Mon", [(9, 3)])], 0 ≤ v) ∧
    (∃ v ∈ hourlyValues [("Mon", [(9, 3)])], v ≠ 0) ∧
    hourlyMax [("Mon", [(9, 3)])] = some 3 ∧
    (0 ≤ cellIntensity 3 (hGet [("Mon", [(9, 3)])] "Mon" 9) ∧
      cellIntensity 3 (hGet [("Mon", [(9, 3)])] "Mon" 9) ≤ 6) ∧
    (0 ≤ barLength (dailyMax [("Mon", 10), ("Tue", 5)])
        (dGet [("Mon", 10), ("Tue", 5)] "Mon") ∧
      barLength (dailyMax [("Mon", 10), ("Tue", 5)])
        (dGet [("Mon", 10), ("Tue", 5)] "Mon") ≤ 20) :=
  ⟨by decide, by decide, by decide, by decide,
    (C3_palette_and_bar_bounds [("Mon", 10), ("Tue", 5)] [("Mon", [(9, 3)])] 3
      (by decide) (by decide) (by decide) (by decide)).1 "Mon" 9,
    (C3_palette_and_bar_bounds [("Mon", 10), ("Tue", 5)] [("Mon", [(9, 3)])] 3
      (by decide) (by decide) (by decide) (by decide)).2 "Mon"⟩

/-- C4: if every daily count is zero (in particular when the histogram is
empty), every one of the seven bars renders with zero length — its
`barLength` is `0` and its rendered row contains no `═` — and no division
error arises (the `max_commits > 0` guard takes the `else 0` branch). -/
theorem C4_all_zero_bars (m : DailyMap) (h : ∀ p ∈ m, p.2 = 0) :
    (days.all fun d => (barLength (dailyMax m) (dGet m d) == 0) &&
      ((barRow (dailyMax m) m d).count '═' == 0)) = true := by
  have hz : ∀ d, dGet m d = 0 := dGet_zero h
  have espace : ∀ n : ℕ, (List.replicate n ' ').count '═' = 0 := fun n =>
    List.count_eq_zero.mpr fun hmem =>
      absurd (List.mem_replicate.mp hmem).2 (by decide)
  have key : ∀ d : String, d.data.count '═' = 0 →
      ((barLength (dailyMax m) (dGet m d) == 0) &&
        ((barRow (dailyMax m) m d).count '═' == 0)) = true := by
    intro d hd
    rw [Bool.and_eq_true, beq_iff_eq, beq_iff_eq]
    refine ⟨by rw [hz d]; exact barLength_zero _, ?_⟩
    unfold barRow padRight
    rw [hz d, barLength_zero, hoursLabel_zero]
    simp only [List.count_append]
    have e1 : List.count '═' [' ', '╠'] = 0 := by decide
    have e2 : List.count '═' ['╣', ' '] = 0 := by decide
    have e3 : List.count '═' ['h', 'r', 's'] = 0 := by decide
    have e4 : ((toString (0 : ℤ)).data.count '═') = 0 := by decide
    have e5 := espace (8 - d.data.length)
    have e6 : ((List.replicate ((0 : ℤ)).toNat '═').count '═') = 0 := by decide
    omega
  rw [List.all_eq_true]
  intro d hd
  apply key
  simp only [days, List.mem_cons, List.not_mem_nil, or_false] at hd
  rcases hd with rfl | rfl | rfl | rfl | rfl | rfl | rfl <;> decide

theorem C4_witness :
    (∀ p ∈ ([("Mon", 0), ("Sat", 0)] : DailyMap), p.2 = 0) ∧
    (days.all fun d =>
      (barLength (dailyMax ([("Mon", 0), ("Sat", 0)] : DailyMap))
          (dGet ([("Mon", 0), ("Sat", 0)] : DailyMap) d) == 0) &&
      ((barRow (dailyMax ([("Mon", 0), ("Sat", 0)] : DailyMap))
          ([("Mon", 0), ("Sat", 0)] : DailyMap) d).count '═' == 0)) = true :=
  ⟨by decide, C4_all_zero_bars [("Mon", 0), ("Sat", 0)] (by decide)⟩

/-- C5: on the histogram `{Mon: {9: 3, 14: 1}}` the maximum cell count is
3; Mon hour 9 scales to the highest-intensity glyph (index 6, `██`), Mon
hour 14 to a nonzero intensity strictly below it (index 2), and every other
cell of the 7×24 grid to the empty glyph (index 0, `░░`). -/
theorem C5_fixed_histogram :
    hourlyMax [("Mon", [(9, 3), (14, 1)])] = some 3 ∧
    cellIntensity 3 (hGet [("Mon", [(9, 3), (14, 1)])] "Mon" 9) = 6 ∧
    pyIndex intensity_chars 6 = some "██".data ∧
    0 < cellIntensity 3 (hGet [("Mon", [(9, 3), (14, 1)])] "Mon" 14) ∧
    cellIntensity 3 (hGet [("Mon", [(9, 3), (14, 1)])] "Mon" 14) < 6 ∧
    pyIndex intensity_chars 0 = some "░░".data ∧
    (days.all fun d => (List.range 24).all fun hr =>
      (d == "Mon" && (hr == 9 || hr == 14)) ||
        (cellIntensity 3 (hGet [("Mon", [(9, 3), (14, 1)])] d hr) == 0)) = true := by
  decide

/-- C6: on daily counts `{Mon: 10, Tue: 5}` the maximum is 10; Mon's bar is
exactly 20 `═` characters, Tue's exactly 10 — Mon exactly twice Tue — and
the other five days render zero-length bars. -/
theorem C6_two_day_bars :
    dailyMax [("Mon", 10), ("Tue", 5)] = 10 ∧
    barLength 10 (dGet [("Mon", 10), ("Tue", 5)] "Mon") = 20 ∧
    barLength 10 (dGet [("Mon", 10), ("Tue", 5)] "Tue") = 10 ∧
    (barRow (dailyMax [("Mon", 10), ("Tue", 5)]) [("Mon", 10), ("Tue", 5)] "Mon").count '═'
      = 20 ∧
    (barRow (dailyMax [("Mon", 10), ("Tue", 5)]) [("Mon", 10), ("Tue", 5)] "Tue").count '═'
      = 10 ∧
    (["Wed", "Thu", "Fri", "Sat", "Sun"].all fun d =>
      (barRow (dailyMax [("Mon", 10), ("Tue", 5)]) [("Mon", 10), ("Tue", 5)] d).count '═'
        == 0) = true := by
  decide

/-- C8: a failed per-repository fetch is skipped and contributes nothing:
the histograms equal those computed from the successful fetches alone, and
the yearly commit total counts exactly the successful repositories — no
error is surfaced (both functions return plain values). -/
theorem C8_skip_and_continue (repos : List (Except Unit (List (String × ℕ))))
    (counts : List (Except Unit ℤ)) :
    get_commit_time_data repos = get_commit_time_data (repos.filter fetchOk) ∧
    yearlyCommitTotal counts = yearlyCommitTotal (counts.filter fetchOk) ∧
    yearlyCommitTotal counts = (okValues counts).sum := by
  refine ⟨(foldl_processRepo_filter repos ([], [])).symm, ?_, ?_⟩
  · unfold yearlyCommitTotal
    rw [yearly_foldl_eq, yearly_foldl_eq, okValues_filter]
  · unfold yearlyCommitTotal
    rw [yearly_foldl_eq, zero_add]

/-- C9: with a positive maximum cell count `M` over a nonnegative
histogram, a cell scales to the empty glyph (index 0) exactly when six
times its count is below `M`; a zero-commit cell also scales to index 0, so
such cells render identically. -/
theorem C9_empty_glyph_iff (m : HourlyMap) (M : ℤ) (d : String) (hr : ℕ)
    (hpos : ∀ v ∈ hourlyValues m, 0 ≤ v) (hM : hourlyMax m = some M) (hMpos : 0 < M) :
    (cellIntensity M (hGet m d hr) = 0 ↔ 6 * hGet m d hr < M) ∧
    cellIntensity M 0 = 0 := by
  constructor
  · exact cellIntensity_eq_zero_iff (hGet_nonneg hpos d hr) hMpos
  · rw [cellIntensity_eq_zero_iff (le_refl 0) hMpos]
    omega

theorem C9_witness :
    (∀ v ∈ hourlyValues [("Mon", [(9, 3), (14, 1)])], 0 ≤ v) ∧
    hourlyMax [("Mon", [(9, 3), (14, 1)])] = some 3 ∧ (0 : ℤ) < 3 ∧
    ((cellIntensity 3 (hGet [("Mon", [(9, 3), (14, 1)])] "Mon" 20) = 0 ↔
        6 * hGet [("Mon", [(9, 3), (14, 1)])] "Mon" 20 < 3) ∧
      cellIntensity 3 0 = 0) :=
  ⟨by decide, by decide, by decide,
    C9_empty_glyph_iff [("Mon", [(9, 3), (14, 1)])] 3 "Mon" 20
      (by decide) (by decide) (by decide)⟩

/-- C10: `create_heatmap` is not total: on `{Mon: {}}` — outer dict
nonempty, so the emptiness guard passes, but no cell exists — `max()` is
applied to an empty sequence and raises (`none` in the model), while the
genuinely empty histogram still renders. -/
theorem C10_inner_empty_raises :
    create_heatmap [("Mon", [])] = none ∧ (create_heatmap []).isSome = true := by
  constructor
  · rfl
  · decide

/-- C7: when the start marker does not occur in the content,
`update_readme` keeps the whole original content as an unchanged prefix and
appends exactly one `start-marker + block + end-marker` section (with its
surrounding newlines) at the end. -/
theorem C7_append_when_absent (block content : List Char)
    (h : ¬ occursIn startMarker content) :
    update_readme block content = content ++ '\n' :: sectionText block ++ ['\n'] :=
  update_readme_append h

theorem C7_witness :
    ¬ occursIn startMarker "# Title".data ∧
    update_readme "B".data "# Title".data
      = "# Title".data ++ '\n' :: sectionText "B".data ++ ['\n'] :=
  ⟨by decide, C7_append_when_absent "B".data "# Title".data (by decide)⟩

/-- C1 counterexample: on a content holding a second end marker after the
first — `"A" ++ START ++ "x" ++ END ++ "y" ++ END ++ "B"` — the greedy
DOTALL `re.sub` replaces through the LAST end marker, so the claimed
result, which keeps `"y" ++ END` after the first end marker, is not what
`update_readme` produces. -/
theorem C1_counterexample :
    update_readme "Z".data
        ("A".data ++ startMarker ++ "x".data ++ endMarker ++ "y".data ++ endMarker ++ "B".data)
      ≠ "A".data ++ startMarker ++ '\n' :: "Z".data ++ '\n' :: endMarker ++ "y".data
          ++ endMarker ++ "B".data := by
  decide

/-- C1 (amended): on `pre ++ START ++ mid ++ END ++ post` with no start
marker inside `pre` and no end marker inside `post` — so the span runs from
the first start marker through the LAST end marker, `mid` being free to
contain further end markers which `.*` greedily crosses — `update_readme`
replaces exactly that span with `START + newline + block + newline + END`,
leaving `pre` and `post` unchanged.  (It is the last end marker, not the
first, that delimits the replacement.) -/
theorem C1_replace_through_last_end (pre mid post block : List Char)
    (hpre : ¬ occursIn startMarker pre) (hpost : ¬ occursIn endMarker post) :
    update_readme block (pre ++ (startMarker ++ (mid ++ (endMarker ++ post))))
      = pre ++ (sectionText block ++ post) :=
  update_readme_replace block pre mid post hpre hpost

theorem C1_witness :
    ¬ occursIn startMarker "A".data ∧ ¬ occursIn endMarker "B".data ∧
    update_readme "Z".data
        ("A".data ++ (startMarker ++
          (("x".data ++ endMarker ++ "y".data) ++ (endMarker ++ "B".data))))
      = "A".data ++ (sectionText "Z".data ++ "B".data) :=
  ⟨by decide, by decide,
    C1_replace_through_last_end "A".data ("x".data ++ endMarker ++ "y".data) "B".data
      "Z".data (by decide) (by decide)⟩

/-- C2 counterexample: on the content `END ++ START` — whose only end
marker precedes its only start marker — the start marker is present but the
regex finds no match, so `update_readme` returns the content unchanged and
the result contains no copy of the block between markers at all; the
"exactly one copy" part of the claim fails. -/
theorem C2_counterexample :
    update_readme "Z".data (endMarker ++ startMarker) = endMarker ++ startMarker ∧
    ¬ occursIn (sectionText "Z".data) (update_readme "Z".data (endMarker ++ startMarker)) := by
  decide

/-- C2 (amended): `update_readme` is idempotent on every content — a second
run with the same block reproduces the first run's output exactly.  The
"exactly one copy of the block between the markers" part holds whenever the
content either lacks the start marker or has an end marker starting at or
after the end of its first start marker; when the start marker is present
but no end marker starts after it, the content passes through unchanged and
need not contain the block at all. -/
theorem C2_idempotent_unique (block content : List Char) :
    update_readme block (update_readme block content) = update_readme block content ∧
    ((¬ occursIn startMarker content ∨
        ∃ i j, firstOcc startMarker content = some i ∧ lastOcc endMarker content = some j ∧
          i + startMarker.length ≤ j) →
      ∃! k, occursAt (sectionText block) (update_readme block content) k) := by
  cases h1 : firstOcc startMarker content with
  | none =>
    have hni : ¬ occursIn startMarker content :=
      (firstOcc_eq_none_iff startMarker_ne_nil).mp h1
    have he : update_readme block content = content ++ '\n' :: sectionText block ++ ['\n'] :=
      update_readme_of_absent h1
    have hA : ¬ occursIn startMarker (content ++ ['\n']) :=
      not_occursIn_append_single startMarker_ne_nil hni newline_notin_startMarker
    have hB : ¬ occursIn endMarker ['\n'] := not_occursIn_of_lt_length (by decide)
    have hshape : content ++ '\n' :: sectionText block ++ ['\n']
        = (content ++ ['\n']) ++ (sectionText block ++ ['\n']) := by
      simp [List.append_assoc]
    have hform : content ++ '\n' :: sectionText block ++ ['\n']
        = (content ++ ['\n']) ++ (startMarker ++
            (('\n' :: block ++ ['\n']) ++ (endMarker ++ ['\n']))) := by
      simp [sectionText, List.append_assoc]
    constructor
    · rw [he, hform,
        update_readme_replace block (content ++ ['\n']) ('\n' :: block ++ ['\n']) ['\n'] hA hB]
      simp [sectionText, List.append_assoc]
    · intro hcase
      rw [he, hshape]
      exact sectionText_unique block (content ++ ['\n']) ['\n'] hA hB
  | some i =>
    cases h2 : lastOcc endMarker content with
    | none =>
      have he : update_readme block content = content := update_readme_of_noend h1 h2
      constructor
      · rw [he]
        exact he
      · intro hcase
        rcases hcase with hno | ⟨i', j', hi', hj', hth⟩
        · rw [(firstOcc_eq_none_iff startMarker_ne_nil).mpr hno] at h1
          simp at h1
        · simp at hj'
    | some j =>
      by_cases h3 : i + startMarker.length ≤ j
      · have he := update_readme_of_match block h1 h2 h3
        have hA : ¬ occursIn startMarker (content.take i) :=
          not_occursIn_take_firstOcc startMarker_ne_nil h1
        have hB : ¬ occursIn endMarker (content.drop (j + endMarker.length)) :=
          not_occursIn_drop_lastOcc endMarker_ne_nil h2
        have hform : content.take i ++ sectionText block ++ content.drop (j + endMarker.length)
            = content.take i ++ (startMarker ++ (('\n' :: block ++ ['\n']) ++
                (endMarker ++ content.drop (j + endMarker.length)))) := by
          simp [sectionText, List.append_assoc]
        have hshape : content.take i ++ sectionText block ++ content.drop (j + endMarker.length)
            = content.take i ++ (sectionText block ++ content.drop (j + endMarker.length)) := by
          simp [List.append_assoc]
        constructor
        · rw [he, hform, update_readme_replace block (content.take i) ('\n' :: block ++ ['\n'])
            (content.drop (j + endMarker.length)) hA hB]
          simp [sectionText, List.append_assoc]
        · intro hcase
          rw [he, hshape]
          exact sectionText_unique block _ _ hA hB
      · have he := update_readme_of_nomatch block h1 h2 h3
        constructor
        · rw [he]
          exact he
        · intro hcase
          exfalso
          rcases hcase with hno | ⟨i', j', hi', hj', hth⟩
          · rw [(firstOcc_eq_none_iff startMarker_ne_nil).mpr hno] at h1
            simp at h1
          · injection hi' with hi2
            injection hj' with hj2
            omega

theorem C2_witness :
    update_readme "B!".data (update_readme "B!".data "hello".data)
        = update_readme "B!".data "hello".data ∧
    ∃! k, occursAt (sectionText "B!".data) (update_readme "B!".data "hello".data) k :=
  ⟨(C2_idempotent_unique "B!".data "hello".data).1,
    (C2_idempotent_unique "B!".data "hello".data).2 (Or.inl (by decide))⟩

end StatsUpdater
